import Mathlib

/-!
Shallow embedding of the asynchronous LOD tile quadtree cache of CosmoScout VR
(plugin `csp-lod-bodies`): the `TileNode` pointer-graph structure
(src/plugins/csp-lod-bodies/src/TileNode.cpp) and the `TreeManager`
merge/prune state machine (src/plugins/csp-lod-bodies/src/TreeManager.hpp).

TileNode objects are modelled as records held in an explicit heap: a finite
association list from node ids (object addresses) to node records.  The C++
raw / `unique_ptr` pointers become node ids; in-place mutation becomes heap
update; a `unique_ptr` field becomes an `Option` field.
-/

/-- Node object identity: stands for the address of a `TileNode` object. -/
abbrev NodeId := Nat

/-- TileId: refinement level plus quadtree patch index (a 64-bit integer in the
source, modelled as `Int`).  Equality is structural. -/
structure TileId where
  level : Nat
  patchIdx : Int
deriving DecidableEq, Repr

/-- Modelled from the spec: the `TileBase` payload class is not among the
embedded sources; per the spec a tile is an opaque payload identified by a
level + quadtree patch index (its `TileId`) and carrying a source-provided
type tag (`std::type_info`, modelled as a numeric tag). -/
structure TileBase where
  tileId : TileId
  typeId : Nat
deriving DecidableEq, Repr

/-- A `TileNode` object: owns one optional `TileBase` payload (`mTile`, a
`unique_ptr` in the C++ which is null after `releaseTile`), four child slots
(`mChildren`, the size-4 array of owning child pointers described by the spec
as "owns 0 or 4 children, indexed 0..3"), and a non-owning parent
back-reference (`mParent`). -/
structure TileNode where
  mTile : Option TileBase
  mChildren : Fin 4 → Option NodeId
  mParent : Option NodeId
deriving DecidableEq

/-- TileNode::getLevel: `mTile->getLevel()`.  The dereference of a null
payload is undefined in the C++; it is modelled by `none`. -/
def TileNode.getLevel (nd : TileNode) : Option Nat :=
  nd.mTile.map (fun t => t.tileId.level)

/-- TileNode::getPatchIdx: `mTile->getPatchIdx()` (null payload ↦ `none`). -/
def TileNode.getPatchIdx (nd : TileNode) : Option Int :=
  nd.mTile.map (fun t => t.tileId.patchIdx)

/-- TileNode::getTileId: `mTile->getTileId()` (null payload ↦ `none`). -/
def TileNode.getTileId (nd : TileNode) : Option TileId :=
  nd.mTile.map (fun t => t.tileId)

/-- TileNode::getTileTypeId: `mTile->getTypeId()` (null payload ↦ `none`). -/
def TileNode.getTileTypeId (nd : TileNode) : Option Nat :=
  nd.mTile.map (fun t => t.typeId)

/-- TileNode::getTile: `mTile.get()`. -/
def TileNode.getTile (nd : TileNode) : Option TileBase :=
  nd.mTile

/-- TileNode::setTile: `mTile = std::move(tile)`. -/
def TileNode.setTile (nd : TileNode) (t : Option TileBase) : TileNode :=
  { nd with mTile := t }

/-- TileNode::releaseTile: `mTile.release()` returns the payload and leaves
the node with a null payload. -/
def TileNode.releaseTile (nd : TileNode) : Option TileBase × TileNode :=
  (nd.mTile, { nd with mTile := none })

/-- TileNode::getParent. -/
def TileNode.getParent (nd : TileNode) : Option NodeId :=
  nd.mParent

/-- TileNode::setParent. -/
def TileNode.setParent (nd : TileNode) (p : Option NodeId) : TileNode :=
  { nd with mParent := p }

/-- TileNode::getChild: `mChildren.at(childIdx).get()`.  The `Except.error`
value models the `std::out_of_range` exception thrown by the checked `at`
access for an index outside 0..3. -/
def TileNode.getChild (nd : TileNode) (i : Nat) : Except Unit (Option NodeId) :=
  if h : i < 4 then Except.ok (nd.mChildren ⟨i, h⟩) else Except.error ()

/-- Truthiness of `node.getChild(i)` as used in the C++ `isRefined`. -/
def childNonNull (nd : TileNode) (i : Nat) : Bool :=
  match nd.getChild i with
  | Except.ok (some _) => true
  | _ => false

/-- isRefined (TileNode.cpp, free function): true iff `getChild(0)` through
`getChild(3)` are all non-null. -/
def isRefined (nd : TileNode) : Bool :=
  childNonNull nd 0 && childNonNull nd 1 && childNonNull nd 2 && childNonNull nd 3

/-- The heap of live `TileNode` objects (id ↦ record). -/
abbrev Heap := List (NodeId × TileNode)

/-- Look up a node record by id (first matching entry). -/
def findNode : Heap → NodeId → Option TileNode
  | [], _ => none
  | e :: h, n => if e.1 = n then some e.2 else findNode h n

/-- Mutate the object with id `n` in place (no-op when `n` is not live). -/
def updateNode (h : Heap) (n : NodeId) (f : TileNode → TileNode) : Heap :=
  h.map (fun e => if e.1 = n then (e.1, f e.2) else e)

/-- The parent back-reference of the node with id `n` (`none` when `n` is not
live or is a root / detached node). -/
def parentOf (h : Heap) (n : NodeId) : Option NodeId :=
  match findNode h n with
  | some nd => nd.mParent
  | none => none

/-- Child slot `j` of node `p` as seen through the heap. -/
def childSlotF (h : Heap) (p : NodeId) (j : Fin 4) : Option NodeId :=
  match findNode h p with
  | some pn => pn.mChildren j
  | none => none

/-- Child slot access with a natural-number index (out of range ↦ `none`). -/
def childSlot (h : Heap) (p : NodeId) (i : Nat) : Option NodeId :=
  if hi : i < 4 then childSlotF h p ⟨i, hi⟩ else none

/-- Step 1 of TileNode::setChild / releaseChild: `if (mChildren.at(childIdx))
mChildren.at(childIdx)->setParent(nullptr)` — clear the back-reference of the
child currently in the slot, if any. -/
def clearParentIfSome (h : Heap) (o : Option NodeId) : Heap :=
  match o with
  | some oid => updateNode h oid (fun t => t.setParent none)
  | none => h

/-- Step 3 of TileNode::setChild: `if (mChildren.at(childIdx))
mChildren.at(childIdx)->setParent(this)` — set the back-reference of the new
child, if non-null. -/
def setParentTo (h : Heap) (c : Option NodeId) (p : NodeId) : Heap :=
  match c with
  | some cid => updateNode h cid (fun t => t.setParent (some p))
  | none => h

/-- TileNode::setChild on node `p`: clear the old child's back-reference,
install `c` in slot `i` (the `unique_ptr::reset` destroys the detached old
child; the model keeps that object in the heap as a detached, unreachable
node, which is observationally equivalent for the tree structure), then set
the new child's back-reference.  `none` models the out-of-range exception of
the checked slot access, or a call through a dangling `this`. -/
def setChild (h : Heap) (p : NodeId) (i : Nat) (c : Option NodeId) : Option Heap :=
  match findNode h p with
  | none => none
  | some pn =>
    if hi : i < 4 then
      some (setParentTo
        (updateNode (clearParentIfSome h (pn.mChildren ⟨i, hi⟩)) p
          (fun t => { t with mChildren := Function.update t.mChildren ⟨i, hi⟩ c }))
        c p)
    else none

/-- TileNode::releaseChild on node `p`: clear the old child's back-reference
and return ownership of the slot's content to the caller, emptying the slot
(`unique_ptr::release`). -/
def releaseChild (h : Heap) (p : NodeId) (i : Nat) : Option (Option NodeId × Heap) :=
  match findNode h p with
  | none => none
  | some pn =>
    if hi : i < 4 then
      some (pn.mChildren ⟨i, hi⟩,
        updateNode (clearParentIfSome h (pn.mChildren ⟨i, hi⟩)) p
          (fun t => { t with mChildren := Function.update t.mChildren ⟨i, hi⟩ none }))
    else none

theorem findNode_updateNode (h : Heap) (n : NodeId) (f : TileNode → TileNode) (m : NodeId) :
    findNode (updateNode h n f) m = if m = n then (findNode h m).map f else findNode h m := by
  induction h with
  | nil => simp [findNode, updateNode]
  | cons e h ih =>
    simp only [updateNode, List.map] at ih ⊢
    by_cases h2 : e.1 = m
    · by_cases h1 : e.1 = n
      · have hmn : m = n := by rw [← h2, h1]
        simp [findNode, h1, h2, hmn]
      · have hmn : ¬ m = n := by rw [← h2]; exact h1
        simp [findNode, h1, h2, hmn]
    · by_cases h1 : e.1 = n
      · have hmn : ¬ m = n := fun hh => h2 (h1.trans hh.symm)
        have hnm : ¬ n = m := fun hh => hmn hh.symm
        simp [findNode, h1, h2, hmn, hnm, ih]
      · simp [findNode, h1, h2, ih]


theorem isSome_findNode_updateNode (h : Heap) (n : NodeId) (f : TileNode → TileNode)
    (m : NodeId) : (findNode (updateNode h n f) m).isSome = (findNode h m).isSome := by
  rw [findNode_updateNode]
  by_cases hm : m = n
  · cases hfm : findNode h m <;> simp [hm, hfm]
  · simp [hm]

theorem findNode_clearParent (h : Heap) (o : Option NodeId) (m : NodeId) :
    findNode (clearParentIfSome h o) m =
      if o = some m then (findNode h m).map (fun t => t.setParent none) else findNode h m := by
  cases o with
  | none => simp [clearParentIfSome]
  | some oid =>
    simp only [clearParentIfSome]
    rw [findNode_updateNode]
    by_cases hm : m = oid
    · subst hm
      simp
    · have hne : ¬ (some oid = some m) := by
        intro hh; exact hm (Option.some.inj hh).symm
      simp [hm, hne]

theorem isSome_findNode_clearParent (h : Heap) (o : Option NodeId) (m : NodeId) :
    (findNode (clearParentIfSome h o) m).isSome = (findNode h m).isSome := by
  rw [findNode_clearParent]
  by_cases ho : o = some m
  · cases hfm : findNode h m <;> simp [ho, hfm]
  · simp [ho]

theorem parentOf_clearParent (h : Heap) (o : Option NodeId) (m : NodeId) :
    parentOf (clearParentIfSome h o) m = if o = some m then none else parentOf h m := by
  by_cases ho : o = some m
  · cases hfm : findNode h m with
    | none => simp [parentOf, findNode_clearParent, ho, hfm]
    | some nd => simp [parentOf, findNode_clearParent, ho, hfm, TileNode.setParent]
  · simp [parentOf, findNode_clearParent, ho]

theorem childSlotF_clearParent (h : Heap) (o : Option NodeId) (q : NodeId) (j : Fin 4) :
    childSlotF (clearParentIfSome h o) q j = childSlotF h q j := by
  by_cases ho : o = some q
  · cases hfq : findNode h q with
    | none => simp [childSlotF, findNode_clearParent, ho, hfq]
    | some nd => simp [childSlotF, findNode_clearParent, ho, hfq, TileNode.setParent]
  · simp [childSlotF, findNode_clearParent, ho]

theorem findNode_setParentTo (h : Heap) (c : Option NodeId) (p : NodeId) (m : NodeId) :
    findNode (setParentTo h c p) m =
      if c = some m then (findNode h m).map (fun t => t.setParent (some p)) else findNode h m := by
  cases c with
  | none => simp [setParentTo]
  | some cid =>
    simp only [setParentTo]
    rw [findNode_updateNode]
    by_cases hm : m = cid
    · subst hm
      simp
    · have hne : ¬ (some cid = some m) := by
        intro hh; exact hm (Option.some.inj hh).symm
      simp [hm, hne]

theorem isSome_findNode_setParentTo (h : Heap) (c : Option NodeId) (p : NodeId) (m : NodeId) :
    (findNode (setParentTo h c p) m).isSome = (findNode h m).isSome := by
  rw [findNode_setParentTo]
  by_cases hc : c = some m
  · cases hfm : findNode h m <;> simp [hc, hfm]
  · simp [hc]

theorem parentOf_setParentTo (h : Heap) (c : Option NodeId) (p : NodeId) (m : NodeId) :
    parentOf (setParentTo h c p) m =
      if c = some m ∧ (findNode h m).isSome = true then some p else parentOf h m := by
  by_cases hc : c = some m
  · cases hfm : findNode h m with
    | none => simp [parentOf, findNode_setParentTo, hc, hfm]
    | some nd => simp [parentOf, findNode_setParentTo, hc, hfm, TileNode.setParent]
  · simp [parentOf, findNode_setParentTo, hc]

theorem childSlotF_setParentTo (h : Heap) (c : Option NodeId) (p : NodeId)
    (q : NodeId) (j : Fin 4) :
    childSlotF (setParentTo h c p) q j = childSlotF h q j := by
  by_cases hc : c = some q
  · cases hfq : findNode h q with
    | none => simp [childSlotF, findNode_setParentTo, hc, hfq]
    | some nd => simp [childSlotF, findNode_setParentTo, hc, hfq, TileNode.setParent]
  · simp [childSlotF, findNode_setParentTo, hc]

theorem parentOf_updateChildren (h : Heap) (p : NodeId) (jj : Fin 4) (c : Option NodeId)
    (m : NodeId) :
    parentOf (updateNode h p (fun t => { t with mChildren := Function.update t.mChildren jj c })) m
      = parentOf h m := by
  by_cases hm : m = p
  · subst hm
    cases hfm : findNode h m with
    | none => simp [parentOf, findNode_updateNode, hfm]
    | some nd => simp [parentOf, findNode_updateNode, hfm]
  · simp [parentOf, findNode_updateNode, hm]

theorem childSlotF_updateChildren (h : Heap) (p : NodeId) (jj : Fin 4) (c : Option NodeId)
    (q : NodeId) (j : Fin 4) (hp : (findNode h p).isSome = true) :
    childSlotF
      (updateNode h p (fun t => { t with mChildren := Function.update t.mChildren jj c })) q j
      = if q = p ∧ j = jj then c else childSlotF h q j := by
  by_cases hq : q = p
  · subst hq
    cases hfq : findNode h q with
    | none => rw [hfq] at hp; simp at hp
    | some pn =>
      simp [childSlotF, findNode_updateNode, hfq, Function.update_apply]
  · simp [childSlotF, findNode_updateNode, hq]

theorem childSlot_eq_childSlotF (h : Heap) (p : NodeId) (i : Nat) (hi : i < 4) :
    childSlot h p i = childSlotF h p ⟨i, hi⟩ := by
  simp [childSlot, hi]

/-- Full characterization of a successful `setChild` call: the index was in
range, the parent object was live, exactly slot `i` of `p` changed among all
child slots, and the only parent back-references that changed are the old
child's (cleared) and the new child's (set to `p`). -/
theorem setChild_char (h : Heap) (p : NodeId) (i : Nat) (c : Option NodeId) (h' : Heap)
    (hs : setChild h p i c = some h') :
    ∃ hi : i < 4, (findNode h p).isSome = true ∧
      (∀ q (j : Fin 4), childSlotF h' q j =
        if q = p ∧ j = ⟨i, hi⟩ then c else childSlotF h q j) ∧
      (∀ m, parentOf h' m =
        if c = some m ∧ (findNode h m).isSome = true then some p
        else if childSlot h p i = some m then none
        else parentOf h m) := by
  cases hfp : findNode h p with
  | none => simp [setChild, hfp] at hs
  | some pn =>
    by_cases hi : i < 4
    · simp only [setChild, hfp, dif_pos hi, Option.some.injEq] at hs
      have hslot : childSlot h p i = pn.mChildren ⟨i, hi⟩ := by
        rw [childSlot_eq_childSlotF h p i hi]
        simp [childSlotF, hfp]
      refine ⟨hi, rfl, ?_, ?_⟩
      · intro q j
        rw [← hs, childSlotF_setParentTo,
          childSlotF_updateChildren _ _ _ _ _ _
            (by rw [isSome_findNode_clearParent, hfp]; rfl),
          childSlotF_clearParent]
      · intro m
        rw [← hs, parentOf_setParentTo, isSome_findNode_updateNode,
          isSome_findNode_clearParent, parentOf_updateChildren, parentOf_clearParent, hslot]
    · simp [setChild, hfp, dif_neg hi] at hs

/-- Full characterization of a successful `releaseChild` call: the index was
in range, the parent object was live, the returned value is the slot's old
content, the slot is now empty (no other slot changed), and the only parent
back-reference that changed is the released child's (cleared). -/
theorem releaseChild_char (h : Heap) (p : NodeId) (i : Nat) (r : Option NodeId) (h' : Heap)
    (hrel : releaseChild h p i = some (r, h')) :
    ∃ hi : i < 4, (findNode h p).isSome = true ∧ r = childSlot h p i ∧
      (∀ q (j : Fin 4), childSlotF h' q j =
        if q = p ∧ j = ⟨i, hi⟩ then none else childSlotF h q j) ∧
      (∀ m, parentOf h' m = if childSlot h p i = some m then none else parentOf h m) := by
  cases hfp : findNode h p with
  | none => simp [releaseChild, hfp] at hrel
  | some pn =>
    by_cases hi : i < 4
    · simp only [releaseChild, hfp, dif_pos hi, Option.some.injEq, Prod.mk.injEq] at hrel
      obtain ⟨hr, hh⟩ := hrel
      have hslot : childSlot h p i = pn.mChildren ⟨i, hi⟩ := by
        rw [childSlot_eq_childSlotF h p i hi]
        simp [childSlotF, hfp]
      refine ⟨hi, rfl, by rw [← hr, hslot], ?_, ?_⟩
      · intro q j
        rw [← hh,
          childSlotF_updateChildren _ _ _ _ _ _
            (by rw [isSome_findNode_clearParent, hfp]; rfl),
          childSlotF_clearParent]
      · intro m
        rw [← hh, parentOf_updateChildren, parentOf_clearParent, hslot]
    · simp [releaseChild, hfp, dif_neg hi] at hrel

/-- No live object stores `c` in any of its child slots (i.e. `c` is not
owned by any node). -/
def NotOwned (h : Heap) (c : NodeId) : Prop :=
  ∀ q (j : Fin 4), childSlotF h q j ≠ some c

/-- Structural well-formedness of the pointer graph maintained by
TileNode::setChild / releaseChild: every owned child points back to its
owner, every parent back-reference is matched by a child slot, and no node
sits in two child slots. -/
structure HeapWF (h : Heap) : Prop where
  ownerOK : ∀ p (j : Fin 4) c, childSlotF h p j = some c → parentOf h c = some p
  backRef : ∀ n nd q, findNode h n = some nd → nd.mParent = some q →
      ∃ j : Fin 4, childSlotF h q j = some n
  uniqueOwner : ∀ p₁ (j₁ : Fin 4) p₂ (j₂ : Fin 4) c, childSlotF h p₁ j₁ = some c →
      childSlotF h p₂ j₂ = some c → p₁ = p₂ ∧ j₁ = j₂

theorem heapWF_setChild (h h' : Heap) (p : NodeId) (i : Nat) (c : Option NodeId)
    (hwf : HeapWF h)
    (hv : ∀ cid, c = some cid → NotOwned h cid ∧ (findNode h cid).isSome = true)
    (hs : setChild h p i c = some h') : HeapWF h' := by
  obtain ⟨hi, hlive, CH, PF⟩ := setChild_char h p i c h' hs
  constructor
  · intro q j d hslot'
    rw [CH q j] at hslot'
    by_cases hqp : q = p ∧ j = ⟨i, hi⟩
    · rw [if_pos hqp] at hslot'
      rw [PF d]
      obtain ⟨hno, hl⟩ := hv d hslot'
      rw [if_pos ⟨hslot', hl⟩, hqp.1]
    · rw [if_neg hqp] at hslot'
      rw [PF d]
      have hb1 : ¬ (c = some d ∧ (findNode h d).isSome = true) := by
        rintro ⟨hc, -⟩
        exact (hv d hc).1 q j hslot'
      rw [if_neg hb1]
      have hb2 : ¬ (childSlot h p i = some d) := by
        intro hcd
        rw [childSlot_eq_childSlotF h p i hi] at hcd
        have huq := hwf.uniqueOwner q j p ⟨i, hi⟩ d hslot' hcd
        exact hqp ⟨huq.1, huq.2⟩
      rw [if_neg hb2]
      exact hwf.ownerOK q j d hslot'
  · intro n nd q hfn hq
    have hpn : parentOf h' n = some q := by simp [parentOf, hfn, hq]
    rw [PF n] at hpn
    by_cases hb1 : c = some n ∧ (findNode h n).isSome = true
    · rw [if_pos hb1] at hpn
      have hpq : p = q := Option.some.inj hpn
      refine ⟨⟨i, hi⟩, ?_⟩
      rw [CH q ⟨i, hi⟩, if_pos ⟨hpq.symm, rfl⟩]
      exact hb1.1
    · rw [if_neg hb1] at hpn
      by_cases hb2 : childSlot h p i = some n
      · rw [if_pos hb2] at hpn; cases hpn
      · rw [if_neg hb2] at hpn
        cases hfn0 : findNode h n with
        | none => simp [parentOf, hfn0] at hpn
        | some nd0 =>
          have hq0 : nd0.mParent = some q := by simpa [parentOf, hfn0] using hpn
          obtain ⟨j', hj'⟩ := hwf.backRef n nd0 q hfn0 hq0
          refine ⟨j', ?_⟩
          rw [CH q j']
          by_cases hqj : q = p ∧ j' = ⟨i, hi⟩
          · exfalso
            apply hb2
            rw [childSlot_eq_childSlotF h p i hi, ← hqj.1, ← hqj.2]
            exact hj'
          · rw [if_neg hqj]
            exact hj'
  · intro q1 j1 q2 j2 d h1 h2
    rw [CH q1 j1] at h1
    rw [CH q2 j2] at h2
    by_cases ha : q1 = p ∧ j1 = ⟨i, hi⟩
    · by_cases hb : q2 = p ∧ j2 = ⟨i, hi⟩
      · rw [if_pos ha] at h1
        rw [if_pos hb] at h2
        exact ⟨ha.1.trans hb.1.symm, ha.2.trans hb.2.symm⟩
      · rw [if_pos ha] at h1
        rw [if_neg hb] at h2
        exact absurd h2 ((hv d h1).1 q2 j2)
    · by_cases hb : q2 = p ∧ j2 = ⟨i, hi⟩
      · rw [if_neg ha] at h1
        rw [if_pos hb] at h2
        exact absurd h1 ((hv d h2).1 q1 j1)
      · rw [if_neg ha] at h1
        rw [if_neg hb] at h2
        exact hwf.uniqueOwner q1 j1 q2 j2 d h1 h2

theorem heapWF_releaseChild (h h' : Heap) (p : NodeId) (i : Nat) (r : Option NodeId)
    (hwf : HeapWF h) (hrel : releaseChild h p i = some (r, h')) : HeapWF h' := by
  obtain ⟨hi, hlive, hr, CH, PF⟩ := releaseChild_char h p i r h' hrel
  constructor
  · intro q j d hslot'
    rw [CH q j] at hslot'
    by_cases hqp : q = p ∧ j = ⟨i, hi⟩
    · rw [if_pos hqp] at hslot'; cases hslot'
    · rw [if_neg hqp] at hslot'
      rw [PF d]
      have hb : ¬ (childSlot h p i = some d) := by
        intro hcd
        rw [childSlot_eq_childSlotF h p i hi] at hcd
        have huq := hwf.uniqueOwner q j p ⟨i, hi⟩ d hslot' hcd
        exact hqp ⟨huq.1, huq.2⟩
      rw [if_neg hb]
      exact hwf.ownerOK q j d hslot'
  · intro n nd q hfn hq
    have hpn : parentOf h' n = some q := by simp [parentOf, hfn, hq]
    rw [PF n] at hpn
    by_cases hb : childSlot h p i = some n
    · rw [if_pos hb] at hpn; cases hpn
    · rw [if_neg hb] at hpn
      cases hfn0 : findNode h n with
      | none => simp [parentOf, hfn0] at hpn
      | some nd0 =>
        have hq0 : nd0.mParent = some q := by simpa [parentOf, hfn0] using hpn
        obtain ⟨j', hj'⟩ := hwf.backRef n nd0 q hfn0 hq0
        refine ⟨j', ?_⟩
        rw [CH q j']
        by_cases hqj : q = p ∧ j' = ⟨i, hi⟩
        · exfalso
          apply hb
          rw [childSlot_eq_childSlotF h p i hi, ← hqj.1, ← hqj.2]
          exact hj'
        · rw [if_neg hqj]
          exact hj'
  · intro q1 j1 q2 j2 d h1 h2
    rw [CH q1 j1] at h1
    rw [CH q2 j2] at h2
    by_cases ha : q1 = p ∧ j1 = ⟨i, hi⟩
    · rw [if_pos ha] at h1; cases h1
    · by_cases hb : q2 = p ∧ j2 = ⟨i, hi⟩
      · rw [if_pos hb] at h2; cases h2
      · rw [if_neg ha] at h1
        rw [if_neg hb] at h2
        exact hwf.uniqueOwner q1 j1 q2 j2 d h1 h2

/-- A tree-mutation step: the two TileNode operations that transfer child
ownership. -/
inductive TreeOp where
  | setOp (p : NodeId) (i : Nat) (c : Option NodeId)
  | releaseOp (p : NodeId) (i : Nat)
deriving DecidableEq, Repr

def applyOp (h : Heap) : TreeOp → Option Heap
  | TreeOp.setOp p i c => setChild h p i c
  | TreeOp.releaseOp p i => (releaseChild h p i).map (fun r => r.2)

def applyOps : Heap → List TreeOp → Option Heap
  | h, [] => some h
  | h, op :: ops =>
    match applyOp h op with
    | some h' => applyOps h' ops
    | none => none

/-- Validity of an operation against the ownership discipline of the C++
code: a node installed by `setChild` is a fresh (not currently owned) live
object — in the source a newly loaded node handed over by the completion
callback.  (Installing an already-owned object would create a double
`unique_ptr` ownership, which is undefined behaviour in the C++.) -/
def ValidOp (h : Heap) : TreeOp → Prop
  | TreeOp.setOp _ _ (some c) => NotOwned h c ∧ (findNode h c).isSome = true
  | TreeOp.setOp _ _ none => True
  | TreeOp.releaseOp _ _ => True

def ValidSeq : Heap → List TreeOp → Prop
  | _, [] => True
  | h, op :: ops =>
    ValidOp h op ∧
      match applyOp h op with
      | some h' => ValidSeq h' ops
      | none => True

theorem heapWF_applyOp (h h' : Heap) (op : TreeOp) (hwf : HeapWF h) (hv : ValidOp h op)
    (ha : applyOp h op = some h') : HeapWF h' := by
  cases op with
  | setOp p i c =>
    simp only [applyOp] at ha
    refine heapWF_setChild h h' p i c hwf ?_ ha
    intro cid hc
    cases c with
    | none => cases hc
    | some c0 =>
      have hcc : c0 = cid := Option.some.inj hc
      rw [← hcc]
      exact hv
  | releaseOp p i =>
    simp only [applyOp] at ha
    cases hrel : releaseChild h p i with
    | none => rw [hrel] at ha; cases ha
    | some rp =>
      rw [hrel] at ha
      replace ha := Option.some.inj ha
      subst ha
      exact heapWF_releaseChild h rp.2 p i rp.1 hwf (by rw [hrel])

theorem heapWF_applyOps : ∀ (ops : List TreeOp) (h h' : Heap), HeapWF h → ValidSeq h ops →
    applyOps h ops = some h' → HeapWF h'
  | [], h, h', hwf, _, ha => by
    simp only [applyOps] at ha
    exact (Option.some.inj ha) ▸ hwf
  | op :: ops, h, h', hwf, hv, ha => by
    simp only [applyOps] at ha
    cases hop : applyOp h op with
    | none => rw [hop] at ha; cases ha
    | some h1 =>
      rw [hop] at ha
      have hwf1 : HeapWF h1 := heapWF_applyOp h h1 op hwf hv.1 hop
      have hvs : ValidSeq h1 ops := by
        have hv2 := hv.2
        rw [hop] at hv2
        exact hv2
      exact heapWF_applyOps ops h1 h' hwf1 hvs ha

/-- Reachability from a root along child slots. -/
inductive Reachable (h : Heap) (r : NodeId) : NodeId → Prop where
  | refl : Reachable h r r
  | child (n m : NodeId) (j : Fin 4) : Reachable h r n → childSlotF h n j = some m →
      Reachable h r m

/-- C2: No dangling back-references: for every node `n` reachable from the
tree root that has a non-null parent, the parent's child slot at `n`'s own
quadrant holds `n`; the invariant is preserved by every (valid) sequence of
`setChild` and `releaseChild` operations starting from a well-formed heap. -/
theorem no_dangling_backrefs (h₀ h : Heap) (ops : List TreeOp) (r n p : NodeId)
    (nd : TileNode) (hwf : HeapWF h₀) (hv : ValidSeq h₀ ops) (ha : applyOps h₀ ops = some h)
    (hreach : Reachable h r n) (hnd : findNode h n = some nd) (hp : nd.mParent = some p) :
    ∃ j : Fin 4, childSlotF h p j = some n :=
  (heapWF_applyOps ops h₀ h hwf hv ha).backRef n nd p hnd hp

/-- A freshly constructed node: `TileNode()` with no payload, no children and
no parent. -/
def blankNode : TileNode :=
  { mTile := none, mChildren := fun _ => none, mParent := none }

def exampleHeap : Heap := [(0, blankNode), (1, blankNode)]

def exampleOps : List TreeOp := [TreeOp.setOp 0 2 (some 1)]

def exampleHeapAfter : Heap :=
  [(0, { blankNode with mChildren := Function.update blankNode.mChildren 2 (some 1) }),
   (1, { blankNode with mParent := some 0 })]

theorem exampleHeap_slot (q : NodeId) (j : Fin 4) : childSlotF exampleHeap q j = none := by
  simp only [childSlotF, findNode, exampleHeap]
  by_cases h0 : (0 : NodeId) = q
  · simp [h0, blankNode]
  · by_cases h1 : (1 : NodeId) = q
    · simp [h0, h1, blankNode]
    · simp [h0, h1]

theorem exampleHeap_wf : HeapWF exampleHeap := by
  constructor
  · intro q j c hc
    rw [exampleHeap_slot] at hc
    cases hc
  · intro n nd q hfn hq
    have hnd : nd = blankNode := by
      simp only [findNode, exampleHeap] at hfn
      by_cases h0 : (0 : NodeId) = n
      · rw [if_pos h0] at hfn
        exact (Option.some.inj hfn).symm
      · rw [if_neg h0] at hfn
        by_cases h1 : (1 : NodeId) = n
        · rw [if_pos h1] at hfn
          exact (Option.some.inj hfn).symm
        · rw [if_neg h1] at hfn
          cases hfn
    rw [hnd] at hq
    cases hq
  · intro q1 j1 q2 j2 c h1 h2
    rw [exampleHeap_slot] at h1
    cases h1

theorem no_dangling_backrefs_witness : childSlotF exampleHeapAfter 0 2 = some 1 := by
  have hv : ValidSeq exampleHeap exampleOps := by
    refine ⟨⟨?_, by decide⟩, ?_⟩
    · intro q j hc
      rw [exampleHeap_slot] at hc
      cases hc
    · cases applyOp exampleHeap (TreeOp.setOp 0 2 (some 1)) <;> trivial
  have ha : applyOps exampleHeap exampleOps = some exampleHeapAfter := by decide
  have hreach : Reachable exampleHeapAfter 0 1 :=
    Reachable.child 0 1 2 Reachable.refl (by decide)
  obtain ⟨j, hj⟩ := no_dangling_backrefs exampleHeap exampleHeapAfter exampleOps 0 1 0
    ({ blankNode with mParent := some 0 }) exampleHeap_wf hv ha hreach (by decide) rfl
  decide

/-- C3: TileNode::setChild first clears the parent back-reference of any
child previously stored in slot `i`, installs `c` in slot `i` (so that
`getChild(i)` afterwards returns `c`), and sets the new child's parent
back-reference to `p`. -/
theorem setChild_spec (h : Heap) (p : NodeId) (i : Nat) (c : Option NodeId) (h' : Heap)
    (hs : setChild h p i c = some h') :
    childSlot h' p i = c ∧
      (∀ cid, c = some cid → (findNode h cid).isSome = true → parentOf h' cid = some p) ∧
      (∀ o, childSlot h p i = some o → c ≠ some o → parentOf h' o = none) := by
  obtain ⟨hi, hlive, CH, PF⟩ := setChild_char h p i c h' hs
  refine ⟨?_, ?_, ?_⟩
  · rw [childSlot_eq_childSlotF h' p i hi, CH p ⟨i, hi⟩, if_pos ⟨rfl, rfl⟩]
  · intro cid hc hl
    rw [PF cid, if_pos ⟨hc, hl⟩]
  · intro o ho hne
    rw [PF o]
    have hb1 : ¬ (c = some o ∧ (findNode h o).isSome = true) := by
      rintro ⟨hc, -⟩
      exact hne hc
    rw [if_neg hb1, if_pos ho]

def exampleHeapC3 : Heap :=
  [(0, { blankNode with mChildren := Function.update blankNode.mChildren 2 (some 1) }),
   (1, { blankNode with mParent := some 0 }),
   (2, blankNode)]

def exampleHeapC3After : Heap :=
  [(0, { blankNode with
         mChildren := Function.update (Function.update blankNode.mChildren 2 (some 1)) 2 (some 2) }),
   (1, blankNode),
   (2, { blankNode with mParent := some 0 })]

theorem setChild_spec_witness :
    childSlot exampleHeapC3After 0 2 = some 2 ∧ parentOf exampleHeapC3After 2 = some 0 ∧
      parentOf exampleHeapC3After 1 = none := by
  obtain ⟨h1, h2, h3⟩ := setChild_spec exampleHeapC3 0 2 (some 2) exampleHeapC3After (by decide)
  exact ⟨h1, h2 2 rfl (by decide), h3 1 (by decide) (by decide)⟩

/-- C4: TileNode::releaseChild returns ownership of the child stored in slot
`i` to the caller with that child's parent back-reference cleared, and leaves
slot `i` empty. -/
theorem releaseChild_spec (h : Heap) (p : NodeId) (i : Nat) (r : Option NodeId) (h' : Heap)
    (hrel : releaseChild h p i = some (r, h')) :
    r = childSlot h p i ∧ childSlot h' p i = none ∧
      (∀ o, r = some o → parentOf h' o = none) := by
  obtain ⟨hi, hlive, hr, CH, PF⟩ := releaseChild_char h p i r h' hrel
  refine ⟨hr, ?_, ?_⟩
  · rw [childSlot_eq_childSlotF h' p i hi, CH p ⟨i, hi⟩, if_pos ⟨rfl, rfl⟩]
  · intro o ho
    rw [PF o, if_pos (by rw [← hr, ho])]

def exampleHeapC4After : Heap :=
  [(0, { blankNode with
         mChildren := Function.update (Function.update blankNode.mChildren 2 (some 1)) 2 none }),
   (1, blankNode),
   (2, blankNode)]

theorem releaseChild_spec_witness :
    (some 1 : Option NodeId) = childSlot exampleHeapC3 0 2 ∧
      childSlot exampleHeapC4After 0 2 = none ∧
      parentOf exampleHeapC4After 1 = none := by
  obtain ⟨h1, h2, h3⟩ := releaseChild_spec exampleHeapC3 0 2 (some 1)
    exampleHeapC4After (by decide)
  exact ⟨h1, h2, h3 1 rfl⟩

theorem childNonNull_iff (nd : TileNode) (i : Nat) :
    childNonNull nd i = true ↔ ∃ c, nd.getChild i = Except.ok (some c) := by
  unfold childNonNull
  cases hg : nd.getChild i with
  | error e => simp
  | ok o =>
    cases o with
    | none => simp
    | some c => simp

/-- C5: `isRefined` returns true iff `getChild(0)` through `getChild(3)` are
all non-null. -/
theorem isRefined_iff (nd : TileNode) :
    isRefined nd = true ↔ ∀ j : Fin 4, ∃ c, nd.getChild j.val = Except.ok (some c) := by
  constructor
  · intro h j
    have h' : childNonNull nd 0 = true ∧ childNonNull nd 1 = true ∧
        childNonNull nd 2 = true ∧ childNonNull nd 3 = true := by
      simpa [isRefined, Bool.and_eq_true, and_assoc] using h
    fin_cases j
    · exact (childNonNull_iff nd 0).mp h'.1
    · exact (childNonNull_iff nd 1).mp h'.2.1
    · exact (childNonNull_iff nd 2).mp h'.2.2.1
    · exact (childNonNull_iff nd 3).mp h'.2.2.2
  · intro h
    simp only [isRefined, Bool.and_eq_true]
    refine ⟨⟨⟨?_, ?_⟩, ?_⟩, ?_⟩
    · exact (childNonNull_iff nd 0).mpr (h 0)
    · exact (childNonNull_iff nd 1).mpr (h 1)
    · exact (childNonNull_iff nd 2).mpr (h 2)
    · exact (childNonNull_iff nd 3).mpr (h 3)

def fullNode : TileNode :=
  { mTile := none, mChildren := fun _ => some 7, mParent := none }

theorem isRefined_iff_witness : isRefined fullNode = true :=
  (isRefined_iff fullNode).mpr (fun j => by fin_cases j <;> exact ⟨7, rfl⟩)

/-- Success flag of a checked child-slot access. -/
def exceptOk {e a : Type} : Except e a → Bool
  | Except.ok _ => true
  | Except.error _ => false

/-- C6: for a live node and a child index in 0..3, `getChild`, `setChild`
and `releaseChild` never fail — the out-of-range branch of the checked slot
access is unreachable. -/
theorem child_ops_total (h : Heap) (p : NodeId) (i : Nat) (pn : TileNode)
    (hp : findNode h p = some pn) (hi : i ≤ 3) :
    exceptOk (pn.getChild i) = true ∧ (∀ c, (setChild h p i c).isSome = true) ∧
      (releaseChild h p i).isSome = true := by
  have hi4 : i < 4 := by omega
  refine ⟨?_, ?_, ?_⟩
  · simp [TileNode.getChild, hi4, exceptOk]
  · intro c
    simp [setChild, hp, hi4]
  · simp [releaseChild, hp, hi4]

def heapC6 : Heap := [(5, blankNode)]

theorem child_ops_total_witness :
    exceptOk (blankNode.getChild 3) = true ∧ (setChild heapC6 5 3 (some 7)).isSome = true ∧
      (releaseChild heapC6 5 3).isSome = true := by
  obtain ⟨h1, h2, h3⟩ := child_ops_total heapC6 5 3 blankNode rfl (by decide)
  exact ⟨h1, h2 (some 7), h3⟩

/-- C7: `setTile` and `releaseTile` change only the node's payload: the four
child slots and the parent back-reference are untouched, so swapping the
payload does not affect the node's position in the tree. -/
theorem tile_ops_preserve_links (nd : TileNode) (t : Option TileBase) :
    (nd.setTile t).mChildren = nd.mChildren ∧ (nd.setTile t).mParent = nd.mParent ∧
      (nd.releaseTile).2.mChildren = nd.mChildren ∧ (nd.releaseTile).2.mParent = nd.mParent :=
  ⟨rfl, rfl, rfl, rfl⟩

/-- C9: when slot `i` holds no child, `releaseChild(i)` returns null and
leaves every node of the heap — in particular the node itself — completely
unchanged: no child slot and no parent back-reference is modified. -/
theorem releaseChild_empty_slot (h : Heap) (p : NodeId) (i : Nat) (pn : TileNode)
    (hp : findNode h p = some pn) (hi : i < 4) (hemp : childSlot h p i = none) :
    (releaseChild h p i).map Prod.fst = some none ∧
      ∀ m, (releaseChild h p i).map (fun r => findNode r.2 m) = some (findNode h m) := by
  have hm : pn.mChildren ⟨i, hi⟩ = none := by
    rw [childSlot_eq_childSlotF h p i hi] at hemp
    simpa [childSlotF, hp] using hemp
  constructor
  · simp [releaseChild, hp, hi, hm]
  · intro m
    simp only [releaseChild, hp, dif_pos hi, hm, clearParentIfSome, Option.map_some',
      Option.some.injEq]
    rw [findNode_updateNode]
    by_cases hmp : m = p
    · subst hmp
      rw [hp]
      have hupd : Function.update pn.mChildren ⟨i, hi⟩ none = pn.mChildren := by
        funext j
        rw [Function.update_apply]
        by_cases hj : j = ⟨i, hi⟩
        · rw [if_pos hj, hj, hm]
        · rw [if_neg hj]
      simp [hupd]
    · rw [if_neg hmp]

def heapC9 : Heap := [(0, blankNode), (1, blankNode)]

theorem releaseChild_empty_slot_witness :
    (releaseChild heapC9 0 1).map Prod.fst = some none ∧
      (releaseChild heapC9 0 1).map (fun r => findNode r.2 1) = some (findNode heapC9 1) := by
  obtain ⟨h1, h2⟩ := releaseChild_empty_slot heapC9 0 1 blankNode rfl (by decide) (by decide)
  exact ⟨h1, h2 1⟩

/-- C10: while the node holds a payload, `getLevel`, `getPatchIdx`,
`getTileId` and `getTileTypeId` return the corresponding values of that
payload; with a null payload (after `releaseTile`) the dereference is
undefined (modelled as `none`). -/
theorem accessors_of_payload (nd : TileNode) :
    (∀ tb, nd.mTile = some tb →
      nd.getLevel = some tb.tileId.level ∧ nd.getPatchIdx = some tb.tileId.patchIdx ∧
        nd.getTileId = some tb.tileId ∧ nd.getTileTypeId = some tb.typeId) ∧
    (nd.mTile = none →
      nd.getLevel = none ∧ nd.getPatchIdx = none ∧ nd.getTileId = none ∧
        nd.getTileTypeId = none) := by
  constructor
  · intro tb htb
    simp [TileNode.getLevel, TileNode.getPatchIdx, TileNode.getTileId,
      TileNode.getTileTypeId, htb]
  · intro htb
    simp [TileNode.getLevel, TileNode.getPatchIdx, TileNode.getTileId,
      TileNode.getTileTypeId, htb]

def nodeC10 : TileNode :=
  { mTile := some { tileId := { level := 3, patchIdx := 5 }, typeId := 9 },
    mChildren := fun _ => none, mParent := none }

theorem accessors_of_payload_witness :
    nodeC10.getLevel = some 3 ∧ nodeC10.getPatchIdx = some 5 ∧
      nodeC10.getTileId = some { level := 3, patchIdx := 5 } ∧
      nodeC10.getTileTypeId = some 9 :=
  (accessors_of_payload nodeC10).1 { tileId := { level := 3, patchIdx := 5 }, typeId := 9 } rfl

/-- The TileId of the payload held by node `n`. -/
def nodeTileId (h : Heap) (n : NodeId) : Option TileId :=
  match findNode h n with
  | some nd => nd.getTileId
  | none => none

/-- Modelled from the spec: the TileId hierarchy walk used by the merge step
of TreeManager::merge (implementation not among the embedded sources): the
would-be parent of a tile is one level up with the patch index shifted by one
quadtree digit; level-0 tiles are roots and have no parent. -/
def TileId.parentId (t : TileId) : Option TileId :=
  if t.level = 0 then none
  else some { level := t.level - 1, patchIdx := t.patchIdx / 4 }

/-- Modelled from the spec: the quadrant slot of a tile below its parent is
the least-significant base-4 digit of its patch index. -/
def TileId.quadrant (t : TileId) : Fin 4 :=
  ⟨(t.patchIdx % 4).toNat, by
    have h1 : 0 ≤ t.patchIdx % 4 := Int.emod_nonneg t.patchIdx (by decide)
    have h2 : t.patchIdx % 4 < 4 := Int.emod_lt_of_pos t.patchIdx (by decide)
    omega⟩

/-- Lookup in the RenderDataMap (TileId ↦ node). -/
def rdLookup : List (TileId × NodeId) → TileId → Option NodeId
  | [], _ => none
  | e :: m, t => if e.1 = t then some e.2 else rdLookup m t

/-- Lookup of a level-0 root slot of the TileQuadTree by patch index. -/
def rootLookup : List (Int × NodeId) → Int → Option NodeId
  | [], _ => none
  | e :: m, x => if e.1 = x then some e.2 else rootLookup m x

/-- Modelled from the spec: the state of a TreeManager (TreeManager.hpp; the
.cpp implementation is not among the embedded sources).  `rdMap` is the
RenderDataMap, `ages` the AgeStore entries (node, age), `roots` the level-0
root slots of the managed TileQuadTree, `unmerged` the UnmergedNodes list of
(node, completion frame), `loaded` the drained LoadedNodes queue content. -/
structure TreeMgr where
  heap : Heap
  rdMap : List (TileId × NodeId)
  ages : List (NodeId × Nat)
  roots : List (Int × NodeId)
  unmerged : List (NodeId × Nat)
  loaded : List NodeId
  frame : Nat
  gracePeriod : Nat

/-- Outcome of one merge attempt (§9 of the spec suggests exactly this
tagged outcome). -/
inductive MergeOutcome where
  | inserted
  | deferred
  | discarded
deriving DecidableEq, Repr

/-- Modelled from the spec: one insertion attempt of TreeManager::merge.  A
level-0 node goes into a free root slot of the tree; otherwise the would-be
parent is looked up in the RenderDataMap: if present with a free quadrant
slot the node is attached via `setChild` and recorded in RenderDataMap and
AgeStore with age 0; if the slot is occupied the node is a duplicate and is
discarded; if the parent is absent the attempt is deferred. -/
def tryInsert (s : TreeMgr) (n : NodeId) : TreeMgr × MergeOutcome :=
  match nodeTileId s.heap n with
  | none => (s, MergeOutcome.discarded)
  | some t =>
    match t.parentId with
    | none =>
      match rootLookup s.roots t.patchIdx with
      | some _ => (s, MergeOutcome.discarded)
      | none =>
        ({ s with
            roots := (t.patchIdx, n) :: s.roots
            rdMap := (t, n) :: s.rdMap
            ages := (n, 0) :: s.ages }, MergeOutcome.inserted)
    | some pt =>
      match rdLookup s.rdMap pt with
      | none => (s, MergeOutcome.deferred)
      | some pid =>
        match childSlotF s.heap pid t.quadrant with
        | some _ => (s, MergeOutcome.discarded)
        | none =>
          match setChild s.heap pid t.quadrant.val (some n) with
          | none => (s, MergeOutcome.discarded)
          | some h2 =>
            ({ s with
                heap := h2
                rdMap := (t, n) :: s.rdMap
                ages := (n, 0) :: s.ages }, MergeOutcome.inserted)

/-- Modelled from the spec: merging one freshly drained node; a deferred node
is appended to UnmergedNodes together with the current frame number. -/
def mergeOne (s : TreeMgr) (n : NodeId) : TreeMgr :=
  match tryInsert s n with
  | (s2, MergeOutcome.deferred) => { s2 with unmerged := s2.unmerged ++ [(n, s2.frame)] }
  | (s2, _) => s2

/-- Modelled from the spec: retrying one unmerged node on a subsequent merge:
if it can now be inserted (or is discarded as a duplicate) it leaves
UnmergedNodes; if it still cannot be inserted it is destroyed once the grace
period (frames since completion) has expired, and kept otherwise. -/
def retryStep (s : TreeMgr) (e : NodeId × Nat) : TreeMgr :=
  match tryInsert s e.1 with
  | (s2, MergeOutcome.deferred) =>
    if s2.frame - e.2 > s2.gracePeriod then s2
    else { s2 with unmerged := s2.unmerged ++ [e] }
  | (s2, _) => s2

/-- Modelled from the spec: retry all nodes kept in UnmergedNodes. -/
def retryUnmerged (s : TreeMgr) : TreeMgr :=
  List.foldl retryStep { s with unmerged := [] } s.unmerged

/-- Modelled from the spec: the drain-and-merge portion of
TreeManager::update — drain the LoadedNodes queue, retry previously deferred
nodes, merge the drained nodes, advance the frame counter.  (The age/prune
phase operates on the AgeStore and is modelled separately by `pruneStore`.) -/
def TreeMgr.update (s : TreeMgr) : TreeMgr :=
  let s3 := List.foldl mergeOne (retryUnmerged { s with loaded := [] }) s.loaded
  { s3 with frame := s3.frame + 1 }

theorem isSome_of_nodeTileId (h : Heap) (n : NodeId) (t : TileId)
    (ht : nodeTileId h n = some t) : (findNode h n).isSome = true := by
  cases hf : findNode h n with
  | none => rw [nodeTileId, hf] at ht; cases ht
  | some nd => rfl

theorem nodeTileId_clearParent (h : Heap) (o : Option NodeId) (m : NodeId) :
    nodeTileId (clearParentIfSome h o) m = nodeTileId h m := by
  by_cases ho : o = some m
  · cases hfm : findNode h m with
    | none => simp [nodeTileId, findNode_clearParent, ho, hfm]
    | some nd =>
      simp [nodeTileId, findNode_clearParent, ho, hfm, TileNode.setParent, TileNode.getTileId]
  · simp [nodeTileId, findNode_clearParent, ho]

theorem nodeTileId_setParentTo (h : Heap) (c : Option NodeId) (p : NodeId) (m : NodeId) :
    nodeTileId (setParentTo h c p) m = nodeTileId h m := by
  by_cases hc : c = some m
  · cases hfm : findNode h m with
    | none => simp [nodeTileId, findNode_setParentTo, hc, hfm]
    | some nd =>
      simp [nodeTileId, findNode_setParentTo, hc, hfm, TileNode.setParent, TileNode.getTileId]
  · simp [nodeTileId, findNode_setParentTo, hc]

theorem nodeTileId_updateChildren (h : Heap) (p : NodeId) (jj : Fin 4) (c : Option NodeId)
    (m : NodeId) :
    nodeTileId
      (updateNode h p (fun t => { t with mChildren := Function.update t.mChildren jj c })) m
      = nodeTileId h m := by
  by_cases hm : m = p
  · subst hm
    cases hfm : findNode h m with
    | none => simp [nodeTileId, findNode_updateNode, hfm]
    | some nd => simp [nodeTileId, findNode_updateNode, hfm, TileNode.getTileId]
  · simp [nodeTileId, findNode_updateNode, hm]

theorem nodeTileId_setChild (h : Heap) (p : NodeId) (i : Nat) (c : Option NodeId) (h' : Heap)
    (hs : setChild h p i c = some h') (m : NodeId) : nodeTileId h' m = nodeTileId h m := by
  cases hfp : findNode h p with
  | none => simp [setChild, hfp] at hs
  | some pn =>
    by_cases hi : i < 4
    · simp only [setChild, hfp, dif_pos hi, Option.some.injEq] at hs
      rw [← hs, nodeTileId_setParentTo, nodeTileId_updateChildren, nodeTileId_clearParent]
    · simp [setChild, hfp, dif_neg hi] at hs

theorem isSome_findNode_setChild (h : Heap) (p : NodeId) (i : Nat) (c : Option NodeId)
    (h' : Heap) (hs : setChild h p i c = some h') (m : NodeId) :
    (findNode h' m).isSome = (findNode h m).isSome := by
  cases hfp : findNode h p with
  | none => simp [setChild, hfp] at hs
  | some pn =>
    by_cases hi : i < 4
    · simp only [setChild, hfp, dif_pos hi, Option.some.injEq] at hs
      rw [← hs, isSome_findNode_setParentTo, isSome_findNode_updateNode,
        isSome_findNode_clearParent]
    · simp [setChild, hfp, dif_neg hi] at hs

theorem setChild_succeeds (h : Heap) (p : NodeId) (i : Nat) (c : Option NodeId)
    (hp : (findNode h p).isSome = true) (hi : i < 4) : ∃ h2, setChild h p i c = some h2 := by
  cases hfp : findNode h p with
  | none => rw [hfp] at hp; simp at hp
  | some pn =>
    exact ⟨setParentTo
      (updateNode (clearParentIfSome h (pn.mChildren ⟨i, hi⟩)) p
        (fun t => { t with mChildren := Function.update t.mChildren ⟨i, hi⟩ c })) c p,
      by simp [setChild, hfp, hi]⟩

theorem parentId_ne (t t' : TileId) (h : TileId.parentId t = some t') : t' ≠ t := by
  rw [TileId.parentId] at h
  by_cases h0 : t.level = 0
  · rw [if_pos h0] at h; cases h
  · rw [if_neg h0] at h
    have := Option.some.inj h
    intro hee
    rw [hee] at this
    have hl := congrArg TileId.level this
    simp at hl
    omega

theorem mergeOne_deferred (s : TreeMgr) (n : NodeId) (t pt : TileId)
    (ht : nodeTileId s.heap n = some t) (hpt : t.parentId = some pt)
    (hrd : rdLookup s.rdMap pt = none) :
    mergeOne s n = { s with unmerged := s.unmerged ++ [(n, s.frame)] } := by
  simp only [mergeOne, tryInsert, ht, hpt, hrd]

theorem mergeOne_of_inserted (s s2 : TreeMgr) (n : NodeId)
    (h : tryInsert s n = (s2, MergeOutcome.inserted)) : mergeOne s n = s2 := by
  simp [mergeOne, h]

theorem tryInsert_inserted_char (s : TreeMgr) (n : NodeId) (t : TileId)
    (ht : nodeTileId s.heap n = some t)
    (hins : (tryInsert s n).2 = MergeOutcome.inserted) :
    ∃ s2, tryInsert s n = (s2, MergeOutcome.inserted) ∧
      s2.rdMap = (t, n) :: s.rdMap ∧ s2.unmerged = s.unmerged ∧ s2.loaded = s.loaded ∧
      s2.frame = s.frame ∧ s2.gracePeriod = s.gracePeriod ∧
      (∀ m, nodeTileId s2.heap m = nodeTileId s.heap m) ∧
      (∀ m, (findNode s2.heap m).isSome = (findNode s.heap m).isSome) ∧
      (∀ q, (∀ tq, rdLookup s.rdMap tq ≠ some q) →
        ∀ j : Fin 4, childSlotF s2.heap q j = childSlotF s.heap q j) := by
  cases hpp : t.parentId with
  | none =>
    cases hrt : rootLookup s.roots t.patchIdx with
    | some x =>
      exfalso
      simp only [tryInsert, ht, hpp, hrt] at hins
      cases hins
    | none =>
      refine ⟨{ s with
          roots := (t.patchIdx, n) :: s.roots
          rdMap := (t, n) :: s.rdMap
          ages := (n, 0) :: s.ages },
        by simp only [tryInsert, ht, hpp, hrt], rfl, rfl, rfl, rfl, rfl,
        fun m => rfl, fun m => rfl, fun q hq j => rfl⟩
  | some pt =>
    cases hrd : rdLookup s.rdMap pt with
    | none =>
      exfalso
      simp only [tryInsert, ht, hpp, hrd] at hins
      cases hins
    | some pid =>
      cases hcs : childSlotF s.heap pid t.quadrant with
      | some x =>
        exfalso
        simp only [tryInsert, ht, hpp, hrd, hcs] at hins
        cases hins
      | none =>
        cases hsc : setChild s.heap pid t.quadrant.val (some n) with
        | none =>
          exfalso
          simp only [tryInsert, ht, hpp, hrd, hcs, hsc] at hins
          cases hins
        | some h2 =>
          refine ⟨{ s with
              heap := h2
              rdMap := (t, n) :: s.rdMap
              ages := (n, 0) :: s.ages },
            by simp only [tryInsert, ht, hpp, hrd, hcs, hsc], rfl, rfl, rfl, rfl, rfl,
            ?_, ?_, ?_⟩
          · intro m
            exact nodeTileId_setChild _ _ _ _ _ hsc m
          · intro m
            exact isSome_findNode_setChild _ _ _ _ _ hsc m
          · intro q hq j
            show childSlotF h2 q j = childSlotF s.heap q j
            obtain ⟨hi, hlive, CH, PF⟩ := setChild_char _ _ _ _ _ hsc
            rw [CH q j]
            have hqp : ¬ (q = pid ∧ j = ⟨(TileId.quadrant t).val, hi⟩) := by
              rintro ⟨hq1, -⟩
              exact hq pt (by rw [hrd, hq1])
            rw [if_neg hqp]

theorem tryInsert_attach (s : TreeMgr) (n pid : NodeId) (t pt : TileId)
    (ht : nodeTileId s.heap n = some t) (hpt : t.parentId = some pt)
    (hrd : rdLookup s.rdMap pt = some pid)
    (hcs : childSlotF s.heap pid t.quadrant = none)
    (hlive : (findNode s.heap pid).isSome = true) :
    ∃ h2, setChild s.heap pid t.quadrant.val (some n) = some h2 ∧
      tryInsert s n = ({ s with
        heap := h2
        rdMap := (t, n) :: s.rdMap
        ages := (n, 0) :: s.ages }, MergeOutcome.inserted) := by
  obtain ⟨h2, hsc⟩ :=
    setChild_succeeds s.heap pid (TileId.quadrant t).val (some n) hlive (TileId.quadrant t).isLt
  exact ⟨h2, hsc, by simp only [tryInsert, ht, hpt, hrd, hcs, hsc]⟩

/-- C1: Out-of-order merge correctness: when a child tile's loaded node is
delivered before its parent's node (both sitting in the drained LoadedNodes
queue, child first), and the parent's own merge succeeds, then after the
deferred child has been retried by the next `update` (the grace period not
yet expired) both nodes are present in the RenderDataMap and are linked
parent-to-child in the child's quadrant slot. -/
theorem merge_out_of_order
    (heap0 : Heap) (rd0 : List (TileId × NodeId)) (ag0 : List (NodeId × Nat))
    (rt0 : List (Int × NodeId)) (fr g : Nat) (c p : NodeId) (tc tp : TileId)
    (Hc : nodeTileId heap0 c = some tc)
    (Hp : nodeTileId heap0 p = some tp)
    (Hpar : tc.parentId = some tp)
    (Hnp : rdLookup rd0 tp = none)
    (Hfresh : ∀ t m, rdLookup rd0 t = some m → m ≠ c ∧ m ≠ p)
    (Hcp : c ≠ p)
    (HpFresh : ∀ j : Fin 4, childSlotF heap0 p j = none)
    (Hgrace : 1 ≤ g)
    (Hins : (tryInsert (mergeOne (TreeMgr.mk heap0 rd0 ag0 rt0 [] [] fr g) c) p).2 =
      MergeOutcome.inserted) :
    rdLookup (TreeMgr.update (TreeMgr.update
        (TreeMgr.mk heap0 rd0 ag0 rt0 [] [c, p] fr g))).rdMap tc = some c ∧
    rdLookup (TreeMgr.update (TreeMgr.update
        (TreeMgr.mk heap0 rd0 ag0 rt0 [] [c, p] fr g))).rdMap tp = some p ∧
    childSlotF (TreeMgr.update (TreeMgr.update
        (TreeMgr.mk heap0 rd0 ag0 rt0 [] [c, p] fr g))).heap p tc.quadrant = some c ∧
    parentOf (TreeMgr.update (TreeMgr.update
        (TreeMgr.mk heap0 rd0 ag0 rt0 [] [c, p] fr g))).heap c = some p := by
  -- first update: the child is deferred, the parent is inserted
  have hdef : mergeOne (TreeMgr.mk heap0 rd0 ag0 rt0 [] [] fr g) c =
      TreeMgr.mk heap0 rd0 ag0 rt0 [(c, fr)] [] fr g := by
    rw [mergeOne_deferred _ c tc tp Hc Hpar Hnp]
    rfl
  have Hins2 : (tryInsert (TreeMgr.mk heap0 rd0 ag0 rt0 [(c, fr)] [] fr g) p).2 =
      MergeOutcome.inserted := by
    rw [← hdef]
    exact Hins
  obtain ⟨sA, hA, hArd, hAun, hAld, hAfr, hAg, hAtile, hAsome, hAslot⟩ :=
    tryInsert_inserted_char (TreeMgr.mk heap0 rd0 ag0 rt0 [(c, fr)] [] fr g) p tp Hp Hins2
  have hArd2 : sA.rdMap = (tp, p) :: rd0 := hArd
  have hAun2 : sA.unmerged = [(c, fr)] := hAun
  have hAld2 : sA.loaded = [] := hAld
  have hAfr2 : sA.frame = fr := hAfr
  have hAg2 : sA.gracePeriod = g := hAg
  have step1 : TreeMgr.update (TreeMgr.mk heap0 rd0 ag0 rt0 [] [c, p] fr g) =
      { sA with frame := sA.frame + 1 } := by
    show { mergeOne (mergeOne (TreeMgr.mk heap0 rd0 ag0 rt0 [] [] fr g) c) p with
        frame := (mergeOne (mergeOne (TreeMgr.mk heap0 rd0 ag0 rt0 [] [] fr g) c) p).frame
          + 1 } = { sA with frame := sA.frame + 1 }
    rw [hdef, mergeOne_of_inserted _ _ _ hA]
  -- second update: the deferred child is retried and attaches below the parent
  have htAc : nodeTileId sA.heap c = some tc := (hAtile c).trans Hc
  have hliveAp : (findNode sA.heap p).isSome = true :=
    (hAsome p).trans (isSome_of_nodeTileId heap0 p tp Hp)
  have hliveAc : (findNode sA.heap c).isSome = true :=
    (hAsome c).trans (isSome_of_nodeTileId heap0 c tc Hc)
  have hnotin : ∀ tq, rdLookup rd0 tq ≠ some p := by
    intro tq hcon
    exact (Hfresh tq p hcon).2 rfl
  have hslotA : ∀ j : Fin 4, childSlotF sA.heap p j = none := by
    intro j
    exact (hAslot p hnotin j).trans (HpFresh j)
  obtain ⟨h2, hsc, hTI⟩ :=
    tryInsert_attach
      (TreeMgr.mk sA.heap sA.rdMap sA.ages sA.roots [] [] (sA.frame + 1) sA.gracePeriod)
      c p tc tp htAc Hpar
      (by show rdLookup sA.rdMap tp = some p
          rw [hArd2]
          simp [rdLookup])
      (hslotA tc.quadrant) hliveAp
  have step2 : TreeMgr.update { sA with frame := sA.frame + 1 } =
      { (TreeMgr.mk h2 ((tc, c) :: sA.rdMap) ((c, 0) :: sA.ages) sA.roots [] []
          (sA.frame + 1) sA.gracePeriod) with
        frame := sA.frame + 1 + 1 } := by
    simp only [TreeMgr.update, retryUnmerged]
    rw [hAld2, hAun2]
    simp only [List.foldl, retryStep, hTI]
  rw [step1, step2]
  have htcp : tc ≠ tp := fun hh => (parentId_ne tc tp Hpar) hh.symm
  obtain ⟨hi, hlive2, CH, PF⟩ := setChild_char _ _ _ _ _ hsc
  refine ⟨?_, ?_, ?_, ?_⟩
  · show rdLookup ((tc, c) :: sA.rdMap) tc = some c
    simp [rdLookup]
  · show rdLookup ((tc, c) :: sA.rdMap) tp = some p
    rw [hArd2]
    simp [rdLookup, htcp]
  · show childSlotF h2 p tc.quadrant = some c
    rw [CH p tc.quadrant, if_pos ⟨rfl, rfl⟩]
  · show parentOf h2 c = some p
    rw [PF c, if_pos ⟨rfl, hliveAc⟩]

def heapC1 : Heap :=
  [(10, { mTile := some { tileId := { level := 1, patchIdx := 2 }, typeId := 0 },
          mChildren := fun _ => none, mParent := none }),
   (11, { mTile := some { tileId := { level := 0, patchIdx := 0 }, typeId := 0 },
          mChildren := fun _ => none, mParent := none })]

def mgrC1 : TreeMgr := TreeMgr.mk heapC1 [] [] [] [] [10, 11] 0 1

theorem merge_out_of_order_witness :
    rdLookup (TreeMgr.update (TreeMgr.update mgrC1)).rdMap { level := 1, patchIdx := 2 } =
        some 10 ∧
    rdLookup (TreeMgr.update (TreeMgr.update mgrC1)).rdMap { level := 0, patchIdx := 0 } =
        some 11 ∧
    childSlotF (TreeMgr.update (TreeMgr.update mgrC1)).heap 11
        (TileId.quadrant { level := 1, patchIdx := 2 }) = some 10 ∧
    parentOf (TreeMgr.update (TreeMgr.update mgrC1)).heap 10 = some 11 := by
  have h := merge_out_of_order heapC1 [] [] [] 0 1 10 11
    { level := 1, patchIdx := 2 } { level := 0, patchIdx := 0 }
    rfl rfl (by decide) rfl
    (fun t m hcon => by simp [rdLookup] at hcon)
    (by decide) (fun j => rfl) (by decide) (by decide)
  exact h

/-- Modelled from the spec: insertion step of the AgeStore sort.  Per the
TreeManager.hpp documentation the AgeStore "is sorted so that the oldest
nodes are at the back": ascending age, oldest last. -/
def insertAge (e : NodeId × Nat) : List (NodeId × Nat) → List (NodeId × Nat)
  | [] => [e]
  | f :: fs => if e.2 ≤ f.2 then e :: f :: fs else f :: insertAge e fs

/-- Modelled from the spec: the re-sort of the AgeStore performed by
TreeManager::prune (ascending age, oldest nodes at the back). -/
def sortAges : List (NodeId × Nat) → List (NodeId × Nat)
  | [] => []
  | e :: es => insertAge e (sortAges es)

/-- Ages never decrease along the list (oldest nodes at the back). -/
abbrev AscByAge (l : List (NodeId × Nat)) : Prop :=
  List.Chain' (fun a b => a.2 ≤ b.2) l

/-- Ages never increase along the list (oldest nodes first). -/
abbrev DescByAge (l : List (NodeId × Nat)) : Prop :=
  List.Chain' (fun a b => b.2 ≤ a.2) l

/-- Modelled from the spec: removal loop of TreeManager::prune on an
oldest-first list: pop the most stale node while it exceeds the age
threshold or the occupancy still exceeds the target; the first component is
what remains, the second the removed nodes in removal order. -/
def popStale (threshold target : Nat) :
    List (NodeId × Nat) → List (NodeId × Nat) × List (NodeId × Nat)
  | [] => ([], [])
  | e :: es =>
    if threshold < e.2 ∨ target < es.length + 1 then
      ((popStale threshold target es).1, e :: (popStale threshold target es).2)
    else (e :: es, [])

/-- Modelled from the spec: TreeManager::prune on the AgeStore — re-sort by
age (oldest at the back, per the TreeManager.hpp documentation), then remove
nodes from the back, most stale first.  Returns (kept entries in sorted
order, removed entries in removal order). -/
def pruneStore (threshold target : Nat) (store : List (NodeId × Nat)) :
    List (NodeId × Nat) × List (NodeId × Nat) :=
  ((popStale threshold target (sortAges store).reverse).1.reverse,
   (popStale threshold target (sortAges store).reverse).2)

theorem ascByAge_insertAge (e : NodeId × Nat) (l : List (NodeId × Nat)) (hl : AscByAge l) :
    AscByAge (insertAge e l) := by
  induction l with
  | nil => simp [insertAge]
  | cons f fs ih =>
    by_cases hef : e.2 ≤ f.2
    · simp only [insertAge, if_pos hef]
      exact List.Chain'.cons hef hl
    · simp only [insertAge, if_neg hef]
      show List.Chain' (fun a b => a.2 ≤ b.2) (f :: insertAge e fs)
      rw [List.chain'_cons']
      refine ⟨?_, ih hl.tail⟩
      intro b hb
      cases fs with
      | nil =>
        simp [insertAge] at hb
        rw [← hb]
        omega
      | cons f2 fs2 =>
        by_cases he2 : e.2 ≤ f2.2
        · simp only [insertAge, if_pos he2, List.head?, Option.mem_def,
            Option.some.injEq] at hb
          rw [← hb]
          omega
        · simp only [insertAge, if_neg he2, List.head?, Option.mem_def,
            Option.some.injEq] at hb
          rw [← hb]
          exact (List.chain'_cons.mp hl).1

theorem ascByAge_sortAges (store : List (NodeId × Nat)) : AscByAge (sortAges store) := by
  induction store with
  | nil => simp [sortAges]
  | cons e es ih => exact ascByAge_insertAge e _ ih

theorem popStale_append (threshold target : Nat) :
    ∀ l : List (NodeId × Nat),
      (popStale threshold target l).2 ++ (popStale threshold target l).1 = l := by
  intro l
  induction l with
  | nil => simp [popStale]
  | cons e es ih =>
    by_cases hcond : threshold < e.2 ∨ target < es.length + 1
    · simp only [popStale, if_pos hcond, List.cons_append, ih]
    · simp [popStale, if_neg hcond]

theorem popStale_kept (threshold target : Nat) (l : List (NodeId × Nat)) (hd : DescByAge l) :
    (∀ x ∈ (popStale threshold target l).1, x.2 ≤ threshold) ∧
      (popStale threshold target l).1.length ≤ target := by
  induction l with
  | nil => simp [popStale]
  | cons e es ih =>
    by_cases hcond : threshold < e.2 ∨ target < es.length + 1
    · simp only [popStale, if_pos hcond]
      exact ih hd.tail
    · simp only [popStale, if_neg hcond]
      push_neg at hcond
      obtain ⟨h1, h2⟩ := hcond
      haveI : IsTrans (NodeId × Nat) (fun a b => b.2 ≤ a.2) :=
        ⟨fun a b c hab hbc => le_trans hbc hab⟩
      have hp := (List.chain'_iff_pairwise).mp hd
      rw [List.pairwise_cons] at hp
      constructor
      · intro x hx
        rcases List.mem_cons.mp hx with hx1 | hx2
        · rw [hx1]
          exact h1
        · have hxe := hp.1 x hx2
          omega
      · simpa using h2

theorem popStale_removed_desc (threshold target : Nat) (l : List (NodeId × Nat))
    (hd : DescByAge l) : DescByAge (popStale threshold target l).2 := by
  haveI : IsTrans (NodeId × Nat) (fun a b => b.2 ≤ a.2) :=
    ⟨fun a b c hab hbc => le_trans hbc hab⟩
  have hd2 : List.Chain' (fun a b => b.2 ≤ a.2) l := hd
  rw [List.chain'_iff_pairwise] at hd2
  show List.Chain' (fun a b => b.2 ≤ a.2) (popStale threshold target l).2
  rw [List.chain'_iff_pairwise]
  have hsub : (popStale threshold target l).2.Sublist l := by
    conv_rhs => rw [← popStale_append threshold target l]
    exact List.sublist_append_left _ _
  exact hd2.sublist hsub

/-- C8 amended: during prune the AgeStore is re-sorted by ascending age so
that the oldest nodes come at the back, and nodes are removed from the back,
most stale first, until no remaining node exceeds the age threshold and the
target occupancy is satisfied. -/
theorem prune_spec (threshold target : Nat) (store : List (NodeId × Nat)) :
    AscByAge (sortAges store) ∧
    sortAges store = (pruneStore threshold target store).1 ++
      (pruneStore threshold target store).2.reverse ∧
    DescByAge (pruneStore threshold target store).2 ∧
    (∀ x ∈ (pruneStore threshold target store).1, x.2 ≤ threshold) ∧
    (pruneStore threshold target store).1.length ≤ target := by
  have hasc := ascByAge_sortAges store
  have hdesc : DescByAge (sortAges store).reverse := by
    show List.Chain' (fun a b => b.2 ≤ a.2) (sortAges store).reverse
    rw [List.chain'_reverse]
    exact hasc
  refine ⟨hasc, ?_, ?_, ?_, ?_⟩
  · have happ := popStale_append threshold target (sortAges store).reverse
    conv_lhs => rw [← List.reverse_reverse (sortAges store), ← happ]
    rw [List.reverse_append]
    rfl
  · exact popStale_removed_desc threshold target _ hdesc
  · intro x hx
    exact (popStale_kept threshold target (sortAges store).reverse hdesc).1 x
      (List.mem_reverse.mp hx)
  · have hk := (popStale_kept threshold target (sortAges store).reverse hdesc).2
    show (popStale threshold target (sortAges store).reverse).1.reverse.length ≤ target
    rw [List.length_reverse]
    exact hk

theorem prune_spec_witness :
    sortAges [(0, 3), (1, 1)] = (pruneStore 2 1 [(0, 3), (1, 1)]).1 ++
      (pruneStore 2 1 [(0, 3), (1, 1)]).2.reverse :=
  (prune_spec 2 1 [(0, 3), (1, 1)]).2.1

/-- C8 counterexample: the claim says the AgeStore is re-sorted by descending
age so that the oldest nodes come first; on the AgeStore [(0, 0), (1, 5)] the
prune sort (oldest at the back, per the TreeManager.hpp documentation) does
not produce a descending-age list. -/
theorem prune_sort_not_descending : ¬ DescByAge (sortAges [(0, 0), (1, 5)]) := by
  intro h
  have h2 : sortAges [(0, 0), (1, 5)] = [(0, 0), (1, 5)] := rfl
  rw [h2] at h
  have h3 := (List.chain'_cons.mp h).1
  omega
